import Mathlib

/-!
Verification of the russross/mandel escape-time fractal renderer.

The Go sources are embedded shallowly: Go `float64` arithmetic is modelled
by an exact linear ordered field (instantiated at `ℚ` or `ℝ`), Go `int` by
`ℤ`/`ℕ` (the Go truncating operators `/` and `%` become `Int.tdiv` and
`Int.tmod`), and `color.NRGBA` by a structure of natural-number channels.
The library entry points (`Parameters`, `Init`, `Generate`, `CalcPixel`,
`getColor`, `mandel`) follow the `mandel` package; the standalone
`mandel.go` program uses the same `mandel`/`getColor`/`calcPixel` bodies
with globals in place of the `Parameters` fields.
-/

namespace Mandel

/-- Go `color.NRGBA`: four byte channels, modelled as naturals. -/
structure NRGBA where
  R : ℕ
  G : ℕ
  B : ℕ
  A : ℕ
  deriving DecidableEq

instance : Inhabited NRGBA := ⟨⟨0, 0, 0, 0⟩⟩

/-- Go conversion `uint8(v)` of an `int`: keep the low 8 bits (value mod 256). -/
def toUInt8 (v : ℤ) : ℕ := (v % 256).toNat

/-- Go conversion `int(r)` of a `float64`: truncation toward zero. -/
def truncToInt {α : Type} [LinearOrderedField α] [FloorRing α] (r : α) : ℤ :=
  if 0 ≤ r then ⌊r⌋ else ⌈r⌉

/-- The `Parameters` struct of the `mandel` package (`part_001`). -/
structure Parameters (α : Type) where
  CenterX : α
  CenterY : α
  Magnification : α
  MaxIterations : ℕ
  SizeX : ℕ
  SizeY : ℕ
  AntiAlias : ℕ
  Continuous : Bool
  Palette : List NRGBA
  InsideColor : NRGBA
  subpixOffsets : List α

/-- The subpixel-offset table: `subpixOffsets[i] = (0.5+float64(i))/float64(antialias) - 0.5`,
computed by `Parameters.Init` (and by `main` in the standalone `mandel.go`). -/
def subpixOffsets {α : Type} [LinearOrderedField α] (n : ℕ) : List α :=
  (List.range n).map (fun (i : ℕ) => (1 / 2 + (i : α)) / (n : α) - 1 / 2)

/-- Model of `Parameters.Init`: rejects `AntiAlias < 1`, derives the subpixel offsets,
then rejects an empty palette. -/
def Parameters.Init {α : Type} [LinearOrderedField α] (p : Parameters α) :
    Except String (Parameters α) :=
  if p.AntiAlias < 1 then .error "anti-aliasing level must be 1 or higher"
  else
    let p' := { p with subpixOffsets := Mandel.subpixOffsets p.AntiAlias }
    if p'.Palette.length < 1 then .error "palette must not be empty"
    else .ok p'

/-- The escape-time loop of `mandel`: `for iters := 1; iters <= maxIters; iters++`,
with `fuel` counting the remaining iterations and `iters` the 1-based counter.
On first exceedance (`a2+b2 >= bailout`) it reports the iteration number and
the squared modulus `a2+b2`; exhausting the fuel reports `none` (the Go loop
falls through and returns the sentinel `0.0`). -/
def mandelLoop {α : Type} [LinearOrderedField α] (bailout x y : α) :
    ℕ → ℕ → α → α → Option (ℕ × α)
  | 0, _, _, _ => none
  | fuel + 1, iters, a, b =>
    let a2 := a * a
    let b2 := b * b
    if bailout ≤ a2 + b2 then some (iters, a2 + b2)
    else
      let ab := a * b
      mandelLoop bailout x y fuel (iters + 1) (a2 - b2 + x) (ab + ab + y)

/-- The escape part of `mandel(maxIters, x, y, continuous)`: bailout is `4.0`
in discrete mode and `2 << 16 = 131072` in continuous mode; the state starts
at `a, b := x, y`. -/
def mandelEscape {α : Type} [LinearOrderedField α] (maxIters : ℕ) (x y : α)
    (continuous : Bool) : Option (ℕ × α) :=
  let bailout : α := if continuous then 131072 else 4
  mandelLoop bailout x y maxIters 1 x y

/-- Discrete-mode `mandel`: the returned value is the escape iteration count,
or the sentinel `0` on non-escape. -/
def mandelDisc {α : Type} [LinearOrderedField α] (maxIters : ℕ) (x y : α) : ℕ :=
  match mandelEscape maxIters x y false with
  | none => 0
  | some (n, _) => n

/-- Model of `mandel(maxIters, x, y, continuous) float64`: on exceedance in continuous
mode it returns `float64(iters+1) - Log2(Log2(a2+b2)*0.5)`, in discrete mode
`float64(iters)`; on non-escape `0.0`. -/
noncomputable def mandel (maxIters : ℕ) (x y : ℝ) (continuous : Bool) : ℝ :=
  match mandelEscape maxIters x y continuous with
  | none => 0
  | some (iters, m) =>
    if continuous then (iters + 1 : ℝ) - Real.logb 2 (Real.logb 2 m * 0.5)
    else (iters : ℝ)

/-- One step of the iterated recurrence: `(a, b) ↦ (a² − b² + x, 2ab + y)`
(the code computes `2ab` as `ab + ab`). -/
def step {α : Type} [LinearOrderedField α] (x y : α) (p : α × α) : α × α :=
  (p.1 * p.1 - p.2 * p.2 + x, p.1 * p.2 + p.1 * p.2 + y)

/-- Squared modulus of a state `(a, b)`. -/
def normSq2 {α : Type} [LinearOrderedField α] (p : α × α) : α :=
  p.1 * p.1 + p.2 * p.2

section EscapeLoop

variable {α : Type} [LinearOrderedField α]

theorem mandelLoop_zero (bailout x y : α) (i : ℕ) (a b : α) :
    mandelLoop bailout x y 0 i a b = none := rfl

theorem mandelLoop_succ (bailout x y : α) (fuel i : ℕ) (a b : α) :
    mandelLoop bailout x y (fuel + 1) i a b =
      if bailout ≤ a * a + b * b then some (i, a * a + b * b)
      else mandelLoop bailout x y fuel (i + 1) (a * a - b * b + x) (a * b + a * b + y) := rfl

theorem forall_lt_succ_shift (n : ℕ) (Q : ℕ → Prop) :
    (∀ k < n + 1, Q k) ↔ Q 0 ∧ ∀ k < n, Q (k + 1) := by
  constructor
  · exact fun h => ⟨h 0 (Nat.succ_pos n), fun k hk => h (k + 1) (Nat.succ_lt_succ hk)⟩
  · rintro ⟨h0, h⟩ k hk
    cases k with
    | zero => exact h0
    | succ k => exact h k (Nat.lt_of_succ_lt_succ hk)

theorem step_apply (x y a b : α) :
    step x y (a, b) = (a * a - b * b + x, a * b + a * b + y) := rfl

theorem normSq2_apply (a b : α) : normSq2 (a, b) = a * a + b * b := rfl

theorem mandelLoop_eq_none_iff (bailout x y : α) (fuel i : ℕ) (a b : α) :
    mandelLoop bailout x y fuel i a b = none ↔
      ∀ k < fuel, normSq2 ((step x y)^[k] (a, b)) < bailout := by
  induction fuel generalizing i a b with
  | zero => simp [mandelLoop_zero]
  | succ fuel ih =>
    rw [mandelLoop_succ]
    by_cases h : bailout ≤ a * a + b * b
    · rw [if_pos h]
      simp only [reduceCtorEq, false_iff, not_forall]
      exact ⟨0, Nat.succ_pos fuel, by simpa [normSq2_apply] using h⟩
    · rw [if_neg h, ih, forall_lt_succ_shift]
      have hst : ∀ k, (step x y)^[k + 1] (a, b) =
          (step x y)^[k] (a * a - b * b + x, a * b + a * b + y) := by
        intro k
        rw [Function.iterate_succ_apply, step_apply]
      constructor
      · intro hall
        exact ⟨by simpa [normSq2_apply] using lt_of_not_le h,
          fun k hk => by rw [hst k]; exact hall k hk⟩
      · rintro ⟨-, hall⟩ k hk
        rw [← hst k]; exact hall k hk

theorem mandelLoop_eq_some_iff (bailout x y : α) (fuel i : ℕ) (a b : α) (n : ℕ) (m : α) :
    mandelLoop bailout x y fuel i a b = some (n, m) ↔
      ∃ j < fuel, n = i + j ∧ m = normSq2 ((step x y)^[j] (a, b)) ∧
        bailout ≤ m ∧ ∀ k < j, normSq2 ((step x y)^[k] (a, b)) < bailout := by
  induction fuel generalizing i a b with
  | zero => simp [mandelLoop_zero]
  | succ fuel ih =>
    rw [mandelLoop_succ]
    have hst : ∀ k, (step x y)^[k + 1] (a, b) =
        (step x y)^[k] (a * a - b * b + x, a * b + a * b + y) := by
      intro k
      rw [Function.iterate_succ_apply, step_apply]
    by_cases h : bailout ≤ a * a + b * b
    · rw [if_pos h]
      constructor
      · intro hs
        rw [Option.some_inj] at hs
        obtain ⟨hn, hm⟩ := Prod.mk.injEq .. ▸ hs
        refine ⟨0, Nat.succ_pos fuel, by omega, ?_, ?_, by omega⟩
        · simp [normSq2_apply, ← hm]
        · rw [← hm]; exact h
      · rintro ⟨j, hj, hn, hm, hbail, hmin⟩
        cases j with
        | zero =>
          simp only [Function.iterate_zero, id_eq, normSq2_apply] at hm
          subst hm
          simp [hn]
        | succ j =>
          exact absurd (by simpa [normSq2_apply] using hmin 0 (Nat.succ_pos j)) (not_lt.mpr h)
    · rw [if_neg h, ih]
      constructor
      · rintro ⟨j, hj, hn, hm, hbail, hmin⟩
        refine ⟨j + 1, Nat.succ_lt_succ hj, by omega, by rw [hst j]; exact hm, hbail, ?_⟩
        rw [forall_lt_succ_shift]
        exact ⟨by simpa [normSq2_apply] using lt_of_not_le h,
          fun k hk => by rw [hst k]; exact hmin k hk⟩
      · rintro ⟨j, hj, hn, hm, hbail, hmin⟩
        cases j with
        | zero =>
          simp only [Function.iterate_zero, id_eq, normSq2_apply] at hm
          exact absurd (hm ▸ hbail) h
        | succ j =>
          refine ⟨j, Nat.lt_of_succ_lt_succ hj, by omega, by rw [← hst j]; exact hm, hbail, ?_⟩
          intro k hk
          rw [← hst k]
          exact hmin (k + 1) (Nat.succ_lt_succ hk)

theorem mandelEscape_eq_none_iff (maxIters : ℕ) (x y : α) (continuous : Bool) :
    mandelEscape maxIters x y continuous = none ↔
      ∀ k < maxIters,
        normSq2 ((step x y)^[k] (x, y)) < (if continuous then 131072 else 4) := by
  unfold mandelEscape
  exact mandelLoop_eq_none_iff _ x y maxIters 1 x y

theorem mandelEscape_eq_some_iff (maxIters : ℕ) (x y : α) (continuous : Bool)
    (n : ℕ) (m : α) :
    mandelEscape maxIters x y continuous = some (n, m) ↔
      ∃ j < maxIters, n = 1 + j ∧ m = normSq2 ((step x y)^[j] (x, y)) ∧
        (if continuous then (131072 : α) else 4) ≤ m ∧
        ∀ k < j, normSq2 ((step x y)^[k] (x, y)) < (if continuous then 131072 else 4) := by
  unfold mandelEscape
  exact mandelLoop_eq_some_iff _ x y maxIters 1 x y n m

end EscapeLoop

section Claim1

variable {α : Type} [LinearOrderedField α]

theorem mandelDisc_of_none {M : ℕ} {x y : α}
    (h : mandelEscape M x y false = none) : mandelDisc M x y = 0 := by
  unfold mandelDisc
  rw [h]

theorem mandelDisc_of_some {M : ℕ} {x y : α} {n : ℕ} {m : α}
    (h : mandelEscape M x y false = some (n, m)) : mandelDisc M x y = n := by
  unfold mandelDisc
  rw [h]

theorem mandelDisc_zero_iff (M : ℕ) (x y : α) :
    mandelDisc M x y = 0 ↔ ∀ k < M, normSq2 ((step x y)^[k] (x, y)) < 4 := by
  cases hE : mandelEscape M x y false with
  | none =>
    have hnone := (mandelEscape_eq_none_iff M x y false).mp hE
    rw [mandelDisc_of_none hE]
    simpa using hnone
  | some v =>
    obtain ⟨n, m⟩ := v
    obtain ⟨j, hj, hn, hm, hbail, -⟩ := (mandelEscape_eq_some_iff M x y false n m).mp hE
    simp only [Bool.false_eq_true, if_false] at hbail
    rw [mandelDisc_of_some hE]
    constructor
    · intro h0
      exact absurd h0 (by omega)
    · intro hall
      exact absurd (hm ▸ hbail) (not_le.mpr (hall j hj))

theorem mandelDisc_succ_iff (M : ℕ) (x y : α) (n : ℕ) :
    mandelDisc M x y = n + 1 ↔
      n < M ∧ 4 ≤ normSq2 ((step x y)^[n] (x, y)) ∧
        ∀ k < n, normSq2 ((step x y)^[k] (x, y)) < 4 := by
  cases hE : mandelEscape M x y false with
  | none =>
    have hnone := (mandelEscape_eq_none_iff M x y false).mp hE
    simp only [Bool.false_eq_true, if_false] at hnone
    rw [mandelDisc_of_none hE]
    constructor
    · intro h0
      exact absurd h0 (by omega)
    · rintro ⟨hn, hbail, -⟩
      exact absurd hbail (not_le.mpr (hnone n hn))
  | some v =>
    obtain ⟨n', m'⟩ := v
    obtain ⟨j, hj, hn', hm', hbail, hmin⟩ := (mandelEscape_eq_some_iff M x y false n' m').mp hE
    simp only [Bool.false_eq_true, if_false] at hbail hmin
    rw [mandelDisc_of_some hE]
    constructor
    · intro heq
      have hjn : j = n := by omega
      subst hjn
      exact ⟨hj, hm' ▸ hbail, hmin⟩
    · rintro ⟨hn, hbail2, hmin2⟩
      have hjn : j = n := by
        rcases lt_trichotomy j n with hlt | heq | hgt
        · exact absurd (hm' ▸ hbail) (not_le.mpr (hmin2 j hlt))
        · exact heq
        · exact absurd hbail2 (not_le.mpr (hmin n hgt))
      omega

/-- Claim C1: in discrete mode the Escape-Time Evaluator iterates
`a' = a² − b² + x`, `b' = 2ab + y` from `a = x, b = y` and returns the
1-based iteration count at the first exceedance of the bailout `4`; if no
exceedance occurs within `maxIters` steps it returns the sentinel `0`; it
returns `1` whenever `x² + y² ≥ 4`, and with `maxIters = 1` it never
returns a count greater than `1` (in particular never `maxIters + 1`);
the real-valued `mandel` in discrete mode returns exactly this count. -/
theorem mandel_discrete_correct (maxIters : ℕ) (h : 1 ≤ maxIters) (x y : α) :
    (mandelDisc maxIters x y = 0 ↔ ∀ k < maxIters, normSq2 ((step x y)^[k] (x, y)) < 4) ∧
    (∀ n, mandelDisc maxIters x y = n + 1 ↔
      n < maxIters ∧ 4 ≤ normSq2 ((step x y)^[n] (x, y)) ∧
        ∀ k < n, normSq2 ((step x y)^[k] (x, y)) < 4) ∧
    (4 ≤ x * x + y * y → mandelDisc maxIters x y = 1) ∧
    mandelDisc 1 x y ≤ 1 ∧
    ∀ (x' y' : ℝ), mandel maxIters x' y' false = (mandelDisc maxIters x' y' : ℝ) := by
  refine ⟨mandelDisc_zero_iff maxIters x y, mandelDisc_succ_iff maxIters x y, ?_, ?_, ?_⟩
  · intro hge
    exact (mandelDisc_succ_iff maxIters x y 0).mpr
      ⟨by omega, by simpa [normSq2_apply] using hge, by omega⟩
  · rcases Nat.eq_zero_or_pos (mandelDisc 1 x y) with h0 | hpos
    · omega
    · obtain ⟨n, hn⟩ : ∃ n, mandelDisc 1 x y = n + 1 := ⟨mandelDisc 1 x y - 1, by omega⟩
      have := (mandelDisc_succ_iff 1 x y n).mp hn
      omega
  · intro x' y'
    cases hE : mandelEscape maxIters x' y' false with
    | none =>
      rw [mandelDisc_of_none hE]
      unfold mandel
      rw [hE]
      simp
    | some v =>
      obtain ⟨n, m⟩ := v
      rw [mandelDisc_of_some hE]
      unfold mandel
      rw [hE]
      simp

/-- Witness for C1 at `maxIters = 1`, `(x, y) = (3, 0)` over `ℚ`. -/
theorem mandel_discrete_correct_witness :
    (1 : ℕ) ≤ 1 ∧ mandelDisc (α := ℚ) 1 3 0 = 1 :=
  ⟨le_refl 1, (mandel_discrete_correct (α := ℚ) 1 (le_refl 1) 3 0).2.2.1 (by norm_num)⟩

end Claim1

section Claim7

variable {α : Type} [LinearOrderedField α]

theorem subpixOffsets_getD (n i : ℕ) (hi : i < n) :
    (subpixOffsets (α := α) n).getD i 0 = (1 / 2 + (i : α)) / (n : α) - 1 / 2 := by
  rw [subpixOffsets, List.getD_eq_getElem?_getD, List.getElem?_map, List.getElem?_range hi]
  rfl

/-- Claim C7: for `antialiasLevel = n ≥ 1` the derived subpixel-offset table has
exactly `n` entries, each strictly inside `(−1/2, 1/2)`, and consecutive
entries are evenly spaced with constant spacing `1/n`. -/
theorem subpixOffsets_spec (n : ℕ) (h : 1 ≤ n) :
    (subpixOffsets (α := α) n).length = n ∧
    (∀ o ∈ subpixOffsets (α := α) n, -(1 / 2) < o ∧ o < 1 / 2) ∧
    ∀ i, i + 1 < n →
      (subpixOffsets (α := α) n).getD (i + 1) 0 - (subpixOffsets (α := α) n).getD i 0
        = 1 / (n : α) := by
  have hn0 : (0 : α) < (n : α) := by
    exact_mod_cast Nat.pos_of_ne_zero (by omega)
  refine ⟨by rw [subpixOffsets, List.length_map, List.length_range], ?_, ?_⟩
  · intro o ho
    rw [subpixOffsets] at ho
    obtain ⟨i, hi, rfl⟩ := List.mem_map.mp ho
    have hcast : (i : α) + 1 ≤ (n : α) := by exact_mod_cast List.mem_range.mp hi
    constructor
    · have hpos : (0 : α) < (1 / 2 + (i : α)) / (n : α) :=
        div_pos (by positivity) hn0
      linarith
    · have hlt : (1 / 2 + (i : α)) / (n : α) < 1 := by
        rw [div_lt_one hn0]
        linarith
      linarith
  · intro i hi
    rw [subpixOffsets_getD n (i + 1) hi, subpixOffsets_getD n i (by omega)]
    have hne : (n : α) ≠ 0 := ne_of_gt hn0
    push_cast
    field_simp
    ring

/-- Witness for C7 at `n = 2` over `ℚ`. -/
theorem subpixOffsets_spec_witness :
    (subpixOffsets (α := ℚ) 2).length = 2 ∧
    (∀ o ∈ subpixOffsets (α := ℚ) 2, -(1 / 2) < o ∧ o < 1 / 2) ∧
    ∀ i, i + 1 < 2 →
      (subpixOffsets (α := ℚ) 2).getD (i + 1) 0 - (subpixOffsets (α := ℚ) 2).getD i 0
        = 1 / (2 : ℚ) :=
  subpixOffsets_spec (α := ℚ) 2 (by norm_num)

end Claim7

section Claim2

theorem mandel_of_none {M : ℕ} {x y : ℝ} {c : Bool}
    (h : mandelEscape M x y c = none) : mandel M x y c = 0 := by
  unfold mandel
  rw [h]

theorem mandel_of_some_true {M : ℕ} {x y : ℝ} {n : ℕ} {m : ℝ}
    (h : mandelEscape M x y true = some (n, m)) :
    mandel M x y true = (n + 1 : ℝ) - Real.logb 2 (Real.logb 2 m * 0.5) := by
  unfold mandel
  rw [h]
  rfl

/-- Claim C2 (amended): the continuous-mode Escape-Time Evaluator uses the fixed
bailout constant `2 << 16 = 131072 = 2¹⁷` (not `2¹⁶`); on exceedance at
iteration `n` it returns `n + 1 − log2(log2(|z|²)/2)`, and non-escape within
`maxIters` iterations returns the sentinel `0`. -/
theorem mandel_continuous_correct (maxIters : ℕ) (x y : ℝ) :
    (mandelEscape maxIters x y true = none → mandel maxIters x y true = 0) ∧
    (∀ (n : ℕ) (m : ℝ), mandelEscape maxIters x y true = some (n, m) →
      mandel maxIters x y true = (n + 1 : ℝ) - Real.logb 2 (Real.logb 2 m / 2)) ∧
    (∀ (n : ℕ) (m : ℝ), mandelEscape maxIters x y true = some (n, m) ↔
      ∃ j < maxIters, n = 1 + j ∧ m = normSq2 ((step x y)^[j] (x, y)) ∧
        (131072 : ℝ) ≤ m ∧ ∀ k < j, normSq2 ((step x y)^[k] (x, y)) < 131072) ∧
    (mandelEscape maxIters x y true = none ↔
      ∀ k < maxIters, normSq2 ((step x y)^[k] (x, y)) < 131072) := by
  refine ⟨mandel_of_none, ?_, ?_, ?_⟩
  · intro n m hE
    rw [mandel_of_some_true hE]
    norm_num [mul_one_div]
  · intro n m
    have h := mandelEscape_eq_some_iff maxIters x y true n m
    simpa using h
  · have h := mandelEscape_eq_none_iff maxIters x y true
    simpa using h

/-- Witness for C2 (amended) at `maxIters = 1`, `(x, y) = (0, 0)`:
the origin does not escape and the evaluator returns the sentinel `0`. -/
theorem mandel_continuous_correct_witness : mandel 1 0 0 true = 0 := by
  apply (mandel_continuous_correct 1 0 0).1
  have h0 : mandelEscape 1 0 0 true = mandelLoop (131072 : ℝ) 0 0 1 1 0 0 := rfl
  rw [h0, show (1 : ℕ) = 0 + 1 from rfl, mandelLoop_succ, if_neg (by norm_num),
    mandelLoop_zero]

/-- Modelled from the spec (refinement comparison for C2): the continuous-mode
evaluator exactly as the claim states it, with bailout constant `2¹⁶ = 65536`
and smoothed value `n + 1 − log2(log2(|z|²)/2)` on exceedance at iteration `n`. -/
noncomputable def mandelContClaimed (maxIters : ℕ) (x y : ℝ) : ℝ :=
  match mandelLoop (65536 : ℝ) x y maxIters 1 x y with
  | none => 0
  | some (n, m) => (n + 1 : ℝ) - Real.logb 2 (Real.logb 2 m / 2)

/-- Claim C2 counterexample: at `(x, y) = (300, 0)` with `maxIterations = 1` the code's
continuous evaluator does not escape (`300² = 90000 < 131072 = 2 << 16`) and
returns the sentinel `0`, whereas the claimed bailout `2¹⁶ = 65536` escapes at
iteration 1 with the nonzero value `2 − log2(log2(90000)/2)`. -/
theorem mandel_bailout_not_two_pow_16 :
    mandel 1 300 0 true ≠ mandelContClaimed 1 300 0 := by
  have hcode : mandel 1 300 0 true = 0 := by
    apply mandel_of_none
    have h0 : mandelEscape 1 300 0 true = mandelLoop (131072 : ℝ) 300 0 1 1 300 0 := rfl
    rw [h0, show (1 : ℕ) = 0 + 1 from rfl, mandelLoop_succ, if_neg (by norm_num),
      mandelLoop_zero]
  have hclaim : mandelContClaimed 1 300 0 = 2 - Real.logb 2 (Real.logb 2 90000 / 2) := by
    unfold mandelContClaimed
    rw [show (1 : ℕ) = 0 + 1 from rfl, mandelLoop_succ, if_pos (by norm_num)]
    norm_num
  rw [hcode, hclaim]
  intro h0
  have h1 : Real.logb 2 (Real.logb 2 90000 / 2) = 2 := by linarith
  have hu : (0 : ℝ) < Real.logb 2 90000 / 2 := by
    have := Real.logb_pos (by norm_num : (1 : ℝ) < 2) (by norm_num : (1 : ℝ) < 90000)
    linarith
  have h2 : Real.logb 2 90000 / 2 = 4 := by
    have hr := Real.rpow_logb (by norm_num : (0 : ℝ) < 2) (by norm_num : (2 : ℝ) ≠ 1) hu
    rw [h1] at hr
    rw [← hr]
    rw [show ((2 : ℝ) : ℝ) = ((2 : ℕ) : ℝ) by norm_num, Real.rpow_natCast]
    norm_num
  have h3 : Real.logb 2 90000 = 8 := by linarith
  have h4 := Real.rpow_logb (by norm_num : (0 : ℝ) < 2) (by norm_num : (2 : ℝ) ≠ 1)
    (by norm_num : (0 : ℝ) < 90000)
  rw [h3] at h4
  rw [show ((8 : ℝ) : ℝ) = ((8 : ℕ) : ℝ) by norm_num, Real.rpow_natCast] at h4
  norm_num at h4

end Claim2

/-- Model of `Parameters.getColor`: escape value → RGB triple (Go `int`s). Sentinel `0`
maps to `InsideColor`; discrete mode indexes the palette with
`int(iters) % len(palette)`; continuous mode interpolates between the colors
at `(aa-1) % len` and `(bb-1) % len` where `aa, bb = floor(iters), floor(iters)+1`
are clamped to `1, 2` when `aa < 1`, weighted by `iters - floor(iters)`, each
channel converted back with Go `int(...)` truncation. Go panics on a negative
index (unreachable for the escape values the claims quantify over); the
embedding totalises the lookup with `List.getD`. -/
def Parameters.getColor {α : Type} [LinearOrderedField α] [FloorRing α]
    (p : Parameters α) (iters : α) : ℤ × ℤ × ℤ :=
  if iters = 0 then ((p.InsideColor.R : ℤ), (p.InsideColor.G : ℤ), (p.InsideColor.B : ℤ))
  else if p.Continuous = false then
    let c := p.Palette.getD ((truncToInt iters).tmod (p.Palette.length : ℤ)).toNat default
    ((c.R : ℤ), (c.G : ℤ), (c.B : ℤ))
  else
    let aa : ℤ := ⌊iters⌋
    let bb : ℤ := ⌊iters⌋ + 1
    let ab : ℤ × ℤ := if aa < 1 then (1, 2) else (aa, bb)
    let weight : α := iters - (⌊iters⌋ : α)
    let c1 := p.Palette.getD ((ab.1 - 1).tmod (p.Palette.length : ℤ)).toNat default
    let c2 := p.Palette.getD ((ab.2 - 1).tmod (p.Palette.length : ℤ)).toNat default
    (truncToInt ((c1.R : α) * (1 - weight) + (c2.R : α) * weight),
     truncToInt ((c1.G : α) * (1 - weight) + (c2.G : α) * weight),
     truncToInt ((c1.B : α) * (1 - weight) + (c2.B : α) * weight))

section ColorMapper

variable {α : Type} [LinearOrderedField α] [FloorRing α]

theorem truncToInt_of_nonneg {r : α} (h : 0 ≤ r) : truncToInt r = ⌊r⌋ := if_pos h

theorem tmod_toNat_eq {a : ℤ} {L : ℕ} (ha : 0 ≤ a) (hL : 0 < L) :
    (a.tmod (L : ℤ)).toNat = a.toNat % L := by
  rw [Int.tmod_eq_emod ha (by positivity)]
  obtain ⟨n, rfl⟩ := Int.eq_ofNat_of_zero_le ha
  rw [← Int.natCast_mod, Int.toNat_natCast, Int.toNat_natCast]

/-- Claim C6: the Color Mapper maps the sentinel escape value `0` to the configured
`InsideColor`, for every palette and both modes. -/
theorem getColor_sentinel (p : Parameters α) :
    p.getColor 0 =
      ((p.InsideColor.R : ℤ), (p.InsideColor.G : ℤ), (p.InsideColor.B : ℤ)) := by
  unfold Parameters.getColor
  rw [if_pos rfl]

/-- Claim C5: for every escaping count `iters ≥ 1` and non-empty palette, the
discrete-mode Color Mapper returns the palette color at index
`⌊iters⌋ mod paletteLength`; for a single-color palette it returns that color
for every such count. -/
theorem getColor_discrete_correct (p : Parameters α) (iters : α)
    (h1 : 1 ≤ iters) (hc : p.Continuous = false) (hp : p.Palette ≠ []) :
    (p.getColor iters =
      (((p.Palette.getD (⌊iters⌋.toNat % p.Palette.length) default).R : ℤ),
       ((p.Palette.getD (⌊iters⌋.toNat % p.Palette.length) default).G : ℤ),
       ((p.Palette.getD (⌊iters⌋.toNat % p.Palette.length) default).B : ℤ))) ∧
    ∀ c0, p.Palette = [c0] →
      p.getColor iters = ((c0.R : ℤ), (c0.G : ℤ), (c0.B : ℤ)) := by
  have hne : iters ≠ 0 := ne_of_gt (lt_of_lt_of_le zero_lt_one h1)
  have h0 : (0 : α) ≤ iters := le_trans zero_le_one h1
  have hfl : (0 : ℤ) ≤ ⌊iters⌋ := Int.floor_nonneg.mpr h0
  have hL : 0 < p.Palette.length := List.length_pos.mpr hp
  have key : p.getColor iters =
      (((p.Palette.getD (⌊iters⌋.toNat % p.Palette.length) default).R : ℤ),
       ((p.Palette.getD (⌊iters⌋.toNat % p.Palette.length) default).G : ℤ),
       ((p.Palette.getD (⌊iters⌋.toNat % p.Palette.length) default).B : ℤ)) := by
    simp only [Parameters.getColor]
    rw [if_neg hne, if_pos hc, truncToInt_of_nonneg h0, tmod_toNat_eq hfl hL]
  refine ⟨key, ?_⟩
  intro c0 hpal
  rw [key, hpal]
  simp [Nat.mod_one]

/-- Claim C4: for every non-sentinel escape value and non-empty palette, the
continuous-mode Color Mapper linearly interpolates between the palette colors
at indices `(⌊iters⌋−1) mod len` and `⌊iters⌋ mod len` weighted by the
fractional part of `iters`, the index pair clamped to `(0, 1)` before the
modulus when `⌊iters⌋ < 1` (via `max ⌊iters⌋ 1`), each channel interpolated
independently and truncated (floored, the values being nonnegative) to an
integer. -/
theorem getColor_continuous_correct (p : Parameters α) (iters : α)
    (hne : iters ≠ 0) (hc : p.Continuous = true) (hp : p.Palette ≠ []) :
    p.getColor iters =
      (⌊((p.Palette.getD ((max ⌊iters⌋ 1 - 1).toNat % p.Palette.length) default).R : α)
          * (1 - Int.fract iters)
        + ((p.Palette.getD ((max ⌊iters⌋ 1).toNat % p.Palette.length) default).R : α)
          * Int.fract iters⌋,
       ⌊((p.Palette.getD ((max ⌊iters⌋ 1 - 1).toNat % p.Palette.length) default).G : α)
          * (1 - Int.fract iters)
        + ((p.Palette.getD ((max ⌊iters⌋ 1).toNat % p.Palette.length) default).G : α)
          * Int.fract iters⌋,
       ⌊((p.Palette.getD ((max ⌊iters⌋ 1 - 1).toNat % p.Palette.length) default).B : α)
          * (1 - Int.fract iters)
        + ((p.Palette.getD ((max ⌊iters⌋ 1).toNat % p.Palette.length) default).B : α)
          * Int.fract iters⌋) := by
  have hL : 0 < p.Palette.length := List.length_pos.mpr hp
  have hfr : Int.fract iters = iters - (⌊iters⌋ : α) := rfl
  have hw0 : (0 : α) ≤ iters - (⌊iters⌋ : α) := by
    have := Int.fract_nonneg iters
    rwa [hfr] at this
  have hw1 : iters - (⌊iters⌋ : α) ≤ 1 := by
    have := Int.fract_lt_one iters
    rw [hfr] at this
    linarith
  have hblend : ∀ u v : ℕ,
      (0 : α) ≤ (u : α) * (1 - (iters - (⌊iters⌋ : α))) + (v : α) * (iters - (⌊iters⌋ : α)) := by
    intro u v
    have h1 : (0 : α) ≤ (u : α) * (1 - (iters - (⌊iters⌋ : α))) :=
      mul_nonneg (by positivity) (by linarith)
    have h2 : (0 : α) ≤ (v : α) * (iters - (⌊iters⌋ : α)) :=
      mul_nonneg (by positivity) hw0
    linarith
  simp only [Parameters.getColor]
  rw [if_neg hne, if_neg (by rw [hc]; simp)]
  by_cases hflt : ⌊iters⌋ < 1
  · rw [if_pos hflt]
    have hmax : max ⌊iters⌋ 1 = 1 := by omega
    rw [hmax]
    have hi1 : (((1 : ℤ) - 1).tmod (p.Palette.length : ℤ)).toNat
        = ((1 : ℤ) - 1).toNat % p.Palette.length := by
      rw [tmod_toNat_eq (by omega) hL]
    have hi2 : (((2 : ℤ) - 1).tmod (p.Palette.length : ℤ)).toNat
        = ((1 : ℤ)).toNat % p.Palette.length := by
      rw [show ((2 : ℤ) - 1) = 1 by omega, tmod_toNat_eq (by omega) hL]
    rw [hfr, hi1, hi2]
    rw [truncToInt_of_nonneg (hblend _ _), truncToInt_of_nonneg (hblend _ _),
      truncToInt_of_nonneg (hblend _ _)]
  · rw [if_neg hflt]
    have hfl1 : (1 : ℤ) ≤ ⌊iters⌋ := by omega
    have hmax : max ⌊iters⌋ 1 = ⌊iters⌋ := by omega
    rw [hmax]
    have hi1 : ((⌊iters⌋ - 1).tmod (p.Palette.length : ℤ)).toNat
        = (⌊iters⌋ - 1).toNat % p.Palette.length := tmod_toNat_eq (by omega) hL
    have hi2 : ((⌊iters⌋ + 1 - 1).tmod (p.Palette.length : ℤ)).toNat
        = ⌊iters⌋.toNat % p.Palette.length := by
      rw [show (⌊iters⌋ + 1 - 1) = ⌊iters⌋ by omega, tmod_toNat_eq (by omega) hL]
    rw [hfr, hi1, hi2]
    rw [truncToInt_of_nonneg (hblend _ _), truncToInt_of_nonneg (hblend _ _),
      truncToInt_of_nonneg (hblend _ _)]

end ColorMapper

/-- Model of `Parameters.CalcPixel`: computes one pixel. Panics (modelled as `none`)
when the subpixel offsets have not been derived by `Init`; otherwise loops
over the full cross product of subpixel offsets, accumulates the R, G, B
sums of `getColor(mandel(...))` per sample, divides by `antialias²` with Go
integer division, and converts each channel with `uint8(...)`, alpha 255. -/
noncomputable def Parameters.CalcPixel (p : Parameters ℝ) (col row : ℕ) : Option NRGBA :=
  if p.subpixOffsets.length ≠ p.AntiAlias then none
  else
    let minsize : ℕ := if p.SizeY < p.SizeX then p.SizeY else p.SizeX
    let acc :=
      p.subpixOffsets.foldl (fun acc1 yoffset =>
        p.subpixOffsets.foldl (fun acc2 xoffset =>
          let x := p.CenterX +
            ((((col : ℤ) - ((p.SizeX / 2 : ℕ) : ℤ)) : ℝ) + xoffset) /
              (p.Magnification * ((minsize : ℝ) - 1))
          let y := p.CenterY -
            ((((row : ℤ) - ((p.SizeY / 2 : ℕ) : ℤ)) : ℝ) - yoffset) /
              (p.Magnification * ((minsize : ℝ) - 1))
          let c := p.getColor (mandel p.MaxIterations x y p.Continuous)
          (acc2.1 + c.1, acc2.2.1 + c.2.1, acc2.2.2 + c.2.2)) acc1) ((0 : ℤ), (0 : ℤ), (0 : ℤ))
    let aa : ℤ := (p.AntiAlias : ℤ) * (p.AntiAlias : ℤ)
    some ⟨toUInt8 (acc.1.tdiv aa), toUInt8 (acc.2.1.tdiv aa), toUInt8 (acc.2.2.tdiv aa), 255⟩

/-- The per-sample color of the Pixel Sampler exactly as claim C3 states it
(refinement comparison): row-offset index `i`, column-offset index `j`, both
drawn from the evenly spaced subpixel-offset formula, at the claimed plane
coordinates. -/
noncomputable def specSample (p : Parameters ℝ) (col row i j : ℕ) : ℤ × ℤ × ℤ :=
  p.getColor (mandel p.MaxIterations
    (p.CenterX +
      ((((col : ℤ) - ((p.SizeX / 2 : ℕ) : ℤ)) : ℝ)
          + ((1 / 2 + (j : ℝ)) / ((p.AntiAlias : ℕ) : ℝ) - 1 / 2)) /
        (p.Magnification * (((min p.SizeX p.SizeY : ℕ) : ℝ) - 1)))
    (p.CenterY -
      ((((row : ℤ) - ((p.SizeY / 2 : ℕ) : ℤ)) : ℝ)
          - ((1 / 2 + (i : ℝ)) / ((p.AntiAlias : ℕ) : ℝ) - 1 / 2)) /
        (p.Magnification * (((min p.SizeX p.SizeY : ℕ) : ℝ) - 1)))
    p.Continuous)

section PixelSampler

theorem subpixOffsets_length {α : Type} [LinearOrderedField α] (n : ℕ) :
    (subpixOffsets (α := α) n).length = n := by
  rw [subpixOffsets, List.length_map, List.length_range]

theorem minsize_ite (p : Parameters ℝ) :
    (if p.SizeY < p.SizeX then p.SizeY else p.SizeX) = min p.SizeX p.SizeY := by
  rcases lt_or_ge p.SizeY p.SizeX with h | h
  · rw [if_pos h, min_eq_right h.le]
  · rw [if_neg (not_lt.mpr h), min_eq_left h]

theorem getD_channel_bounds (l : List NRGBA)
    (hl : ∀ c ∈ l, c.R ≤ 255 ∧ c.G ≤ 255 ∧ c.B ≤ 255) (i : ℕ) :
    (l.getD i default).R ≤ 255 ∧ (l.getD i default).G ≤ 255 ∧ (l.getD i default).B ≤ 255 := by
  rw [List.getD_eq_getElem?_getD]
  cases h : l[i]? with
  | none =>
    have hd : (default : NRGBA) = ⟨0, 0, 0, 0⟩ := rfl
    simp [hd]
  | some c =>
    simp only [Option.getD_some]
    exact hl c (List.getElem?_mem h)

theorem blend_bounds {α : Type} [LinearOrderedField α] [FloorRing α]
    {u v : ℕ} (hu : u ≤ 255) (hv : v ≤ 255) {w : α} (hw0 : 0 ≤ w) (hw1 : w ≤ 1) :
    0 ≤ truncToInt ((u : α) * (1 - w) + (v : α) * w) ∧
      truncToInt ((u : α) * (1 - w) + (v : α) * w) ≤ 255 := by
  have hb0 : (0 : α) ≤ (u : α) * (1 - w) + (v : α) * w := by
    have h1 : (0 : α) ≤ (u : α) * (1 - w) := mul_nonneg (by positivity) (by linarith)
    have h2 : (0 : α) ≤ (v : α) * w := mul_nonneg (by positivity) hw0
    linarith
  have hb1 : (u : α) * (1 - w) + (v : α) * w ≤ 255 := by
    have h1 : (u : α) * (1 - w) ≤ 255 * (1 - w) :=
      mul_le_mul_of_nonneg_right (by exact_mod_cast hu) (by linarith)
    have h2 : (v : α) * w ≤ 255 * w :=
      mul_le_mul_of_nonneg_right (by exact_mod_cast hv) hw0
    linarith
  rw [truncToInt_of_nonneg hb0]
  refine ⟨Int.floor_nonneg.mpr hb0, ?_⟩
  have := Int.floor_le_floor (α := α) hb1
  rwa [show ((255 : α)) = ((255 : ℤ) : α) by norm_num, Int.floor_intCast] at this

theorem getColor_bounds {α : Type} [LinearOrderedField α] [FloorRing α]
    (p : Parameters α)
    (hpb : ∀ c ∈ p.Palette, c.R ≤ 255 ∧ c.G ≤ 255 ∧ c.B ≤ 255)
    (hib : p.InsideColor.R ≤ 255 ∧ p.InsideColor.G ≤ 255 ∧ p.InsideColor.B ≤ 255)
    (iters : α) :
    (0 ≤ (p.getColor iters).1 ∧ (p.getColor iters).1 ≤ 255) ∧
    (0 ≤ (p.getColor iters).2.1 ∧ (p.getColor iters).2.1 ≤ 255) ∧
    (0 ≤ (p.getColor iters).2.2 ∧ (p.getColor iters).2.2 ≤ 255) := by
  unfold Parameters.getColor
  by_cases h0 : iters = 0
  · simp only [if_pos h0]
    refine ⟨⟨by positivity, by exact_mod_cast hib.1⟩,
      ⟨by positivity, by exact_mod_cast hib.2.1⟩,
      ⟨by positivity, by exact_mod_cast hib.2.2⟩⟩
  · simp only [if_neg h0]
    by_cases hcont : p.Continuous = false
    · simp only [if_pos hcont]
      obtain ⟨hR, hG, hB⟩ := getD_channel_bounds p.Palette hpb
        ((truncToInt iters).tmod (p.Palette.length : ℤ)).toNat
      exact ⟨⟨by positivity, by exact_mod_cast hR⟩,
        ⟨by positivity, by exact_mod_cast hG⟩,
        ⟨by positivity, by exact_mod_cast hB⟩⟩
    · simp only [if_neg hcont]
      have hw0 : (0 : α) ≤ iters - (⌊iters⌋ : α) := by
        have := Int.fract_nonneg iters
        rwa [show Int.fract iters = iters - (⌊iters⌋ : α) from rfl] at this
      have hw1 : iters - (⌊iters⌋ : α) ≤ 1 := by
        have := Int.fract_lt_one iters
        rw [show Int.fract iters = iters - (⌊iters⌋ : α) from rfl] at this
        linarith
      obtain ⟨hR1, hG1, hB1⟩ := getD_channel_bounds p.Palette hpb
        ((((if (⌊iters⌋ : ℤ) < 1 then ((1 : ℤ), (2 : ℤ)) else (⌊iters⌋, ⌊iters⌋ + 1)).1 - 1)).tmod
          (p.Palette.length : ℤ)).toNat
      obtain ⟨hR2, hG2, hB2⟩ := getD_channel_bounds p.Palette hpb
        ((((if (⌊iters⌋ : ℤ) < 1 then ((1 : ℤ), (2 : ℤ)) else (⌊iters⌋, ⌊iters⌋ + 1)).2 - 1)).tmod
          (p.Palette.length : ℤ)).toNat
      exact ⟨blend_bounds hR1 hR2 hw0 hw1, blend_bounds hG1 hG2 hw0 hw1,
        blend_bounds hB1 hB2 hw0 hw1⟩

theorem foldl_addTriple (l : List ℝ) (f1 f2 f3 : ℝ → ℤ) (a : ℤ × ℤ × ℤ) :
    l.foldl (fun acc o => (acc.1 + f1 o, acc.2.1 + f2 o, acc.2.2 + f3 o)) a =
      (a.1 + (l.map f1).sum, a.2.1 + (l.map f2).sum, a.2.2 + (l.map f3).sum) := by
  induction l generalizing a with
  | nil => simp
  | cons x xs ih =>
    rw [List.foldl_cons, ih]
    simp [add_assoc]

theorem sum_list_range (n : ℕ) (f : ℕ → ℤ) :
    ((List.range n).map f).sum = ∑ j ∈ Finset.range n, f j := by
  induction n with
  | zero => simp
  | succ n ih =>
    rw [List.range_succ, List.map_append, List.sum_append, Finset.sum_range_succ, ih]
    simp

theorem sum_sum_bounds (N : ℕ) (f : ℕ → ℕ → ℤ)
    (h : ∀ i j, 0 ≤ f i j ∧ f i j ≤ 255) :
    0 ≤ ∑ i ∈ Finset.range N, ∑ j ∈ Finset.range N, f i j ∧
      ∑ i ∈ Finset.range N, ∑ j ∈ Finset.range N, f i j ≤ 255 * (N : ℤ) * N := by
  constructor
  · exact Finset.sum_nonneg fun i _ => Finset.sum_nonneg fun j _ => (h i j).1
  · calc ∑ i ∈ Finset.range N, ∑ j ∈ Finset.range N, f i j
        ≤ ∑ _i ∈ Finset.range N, (255 * (N : ℤ)) := by
          refine Finset.sum_le_sum fun i _ => ?_
          calc ∑ j ∈ Finset.range N, f i j
              ≤ ∑ _j ∈ Finset.range N, (255 : ℤ) :=
                Finset.sum_le_sum fun j _ => (h i j).2
            _ = 255 * (N : ℤ) := by
                rw [Finset.sum_const, Finset.card_range, nsmul_eq_mul]
                ring
      _ = 255 * (N : ℤ) * N := by
          rw [Finset.sum_const, Finset.card_range, nsmul_eq_mul]
          ring

theorem div_toUInt8_eq {S : ℤ} {N : ℕ} (h0 : 0 ≤ S)
    (h255 : S ≤ 255 * (N : ℤ) * N) (hN : 1 ≤ N) :
    toUInt8 (S.tdiv ((N : ℤ) * N)) = S.toNat / (N * N) := by
  have haa : (0 : ℤ) < (N : ℤ) * N := by
    have : (0 : ℤ) < (N : ℤ) := by exact_mod_cast hN
    positivity
  rw [Int.tdiv_eq_ediv h0 haa.le]
  have hq0 : 0 ≤ S / ((N : ℤ) * N) := Int.ediv_nonneg h0 haa.le
  have hq255 : S / ((N : ℤ) * N) ≤ 255 := Int.ediv_le_of_le_mul haa (by linarith)
  unfold toUInt8
  rw [Int.emod_eq_of_lt hq0 (by omega)]
  obtain ⟨s, rfl⟩ := Int.eq_ofNat_of_zero_le h0
  rw [show ((N : ℤ) * N) = ((N * N : ℕ) : ℤ) by push_cast; ring, ← Int.natCast_div,
    Int.toNat_natCast, Int.toNat_natCast]

end PixelSampler

theorem specSample_bounds (p : Parameters ℝ)
    (hpb : ∀ c ∈ p.Palette, c.R ≤ 255 ∧ c.G ≤ 255 ∧ c.B ≤ 255)
    (hib : p.InsideColor.R ≤ 255 ∧ p.InsideColor.G ≤ 255 ∧ p.InsideColor.B ≤ 255)
    (col row i j : ℕ) :
    (0 ≤ (specSample p col row i j).1 ∧ (specSample p col row i j).1 ≤ 255) ∧
    (0 ≤ (specSample p col row i j).2.1 ∧ (specSample p col row i j).2.1 ≤ 255) ∧
    (0 ≤ (specSample p col row i j).2.2 ∧ (specSample p col row i j).2.2 ≤ 255) := by
  unfold specSample
  exact getColor_bounds p hpb hib _

theorem CalcPixel_eq (p : Parameters ℝ)
    (hinit : p.subpixOffsets = subpixOffsets p.AntiAlias)
    (hN : 1 ≤ p.AntiAlias)
    (hpb : ∀ c ∈ p.Palette, c.R ≤ 255 ∧ c.G ≤ 255 ∧ c.B ≤ 255)
    (hib : p.InsideColor.R ≤ 255 ∧ p.InsideColor.G ≤ 255 ∧ p.InsideColor.B ≤ 255)
    (col row : ℕ) :
    p.CalcPixel col row = some
      ⟨(∑ i ∈ Finset.range p.AntiAlias, ∑ j ∈ Finset.range p.AntiAlias,
          (specSample p col row i j).1).toNat / (p.AntiAlias * p.AntiAlias),
       (∑ i ∈ Finset.range p.AntiAlias, ∑ j ∈ Finset.range p.AntiAlias,
          (specSample p col row i j).2.1).toNat / (p.AntiAlias * p.AntiAlias),
       (∑ i ∈ Finset.range p.AntiAlias, ∑ j ∈ Finset.range p.AntiAlias,
          (specSample p col row i j).2.2).toNat / (p.AntiAlias * p.AntiAlias),
       255⟩ := by
  obtain ⟨hS1a, hS1b⟩ := sum_sum_bounds p.AntiAlias
    (fun i j => (specSample p col row i j).1)
    (fun i j => (specSample_bounds p hpb hib col row i j).1)
  obtain ⟨hS2a, hS2b⟩ := sum_sum_bounds p.AntiAlias
    (fun i j => (specSample p col row i j).2.1)
    (fun i j => (specSample_bounds p hpb hib col row i j).2.1)
  obtain ⟨hS3a, hS3b⟩ := sum_sum_bounds p.AntiAlias
    (fun i j => (specSample p col row i j).2.2)
    (fun i j => (specSample_bounds p hpb hib col row i j).2.2)
  simp only [Parameters.CalcPixel, hinit]
  rw [if_neg (by rw [subpixOffsets_length]; exact fun h => h rfl)]
  simp only [minsize_ite, foldl_addTriple, Mandel.subpixOffsets, List.map_map,
    sum_list_range, Function.comp, zero_add]
  show some (NRGBA.mk
      (toUInt8 ((∑ i ∈ Finset.range p.AntiAlias, ∑ j ∈ Finset.range p.AntiAlias,
        (specSample p col row i j).1).tdiv ((p.AntiAlias : ℤ) * (p.AntiAlias : ℤ))))
      (toUInt8 ((∑ i ∈ Finset.range p.AntiAlias, ∑ j ∈ Finset.range p.AntiAlias,
        (specSample p col row i j).2.1).tdiv ((p.AntiAlias : ℤ) * (p.AntiAlias : ℤ))))
      (toUInt8 ((∑ i ∈ Finset.range p.AntiAlias, ∑ j ∈ Finset.range p.AntiAlias,
        (specSample p col row i j).2.2).tdiv ((p.AntiAlias : ℤ) * (p.AntiAlias : ℤ))))
      255) = _
  rw [div_toUInt8_eq hS1a hS1b hN, div_toUInt8_eq hS2a hS2b hN, div_toUInt8_eq hS3a hS3b hN]

/-- Claim C3: for every pixel and every initialized parameter set satisfying the §3
invariants (palette and inside colors byte-valued), the Pixel Sampler
evaluates the full `antialiasLevel²` cross product of subpixel offsets at the
plane coordinates
`x = centerX + (col − width/2 + xOffset) / (magnification × (minDimension − 1))`,
`y = centerY − (row − height/2 − yOffset) / (magnification × (minDimension − 1))`
with `minDimension = min(width, height)`, sums the R, G, B channels over all
samples, divides each sum by `antialiasLevel²` with integer truncation, and
outputs a fully opaque color; with `antialiasLevel = 1` the output equals a
single unweighted Evaluator+Color-Mapper call at the pixel center with zero
offset. -/
theorem CalcPixel_correct (p : Parameters ℝ)
    (hinit : p.subpixOffsets = subpixOffsets p.AntiAlias)
    (hN : 1 ≤ p.AntiAlias) (hW : 1 ≤ p.SizeX) (hH : 1 ≤ p.SizeY)
    (hmag : 0 < p.Magnification) (hM : 1 ≤ p.MaxIterations) (hpal : p.Palette ≠ [])
    (hpb : ∀ c ∈ p.Palette, c.R ≤ 255 ∧ c.G ≤ 255 ∧ c.B ≤ 255)
    (hib : p.InsideColor.R ≤ 255 ∧ p.InsideColor.G ≤ 255 ∧ p.InsideColor.B ≤ 255)
    (col row : ℕ) :
    (p.CalcPixel col row = some
      ⟨(∑ i ∈ Finset.range p.AntiAlias, ∑ j ∈ Finset.range p.AntiAlias,
          (specSample p col row i j).1).toNat / (p.AntiAlias * p.AntiAlias),
       (∑ i ∈ Finset.range p.AntiAlias, ∑ j ∈ Finset.range p.AntiAlias,
          (specSample p col row i j).2.1).toNat / (p.AntiAlias * p.AntiAlias),
       (∑ i ∈ Finset.range p.AntiAlias, ∑ j ∈ Finset.range p.AntiAlias,
          (specSample p col row i j).2.2).toNat / (p.AntiAlias * p.AntiAlias),
       255⟩) ∧
    (p.AntiAlias = 1 → p.CalcPixel col row = some
      ⟨(p.getColor (mandel p.MaxIterations
          (p.CenterX + ((((col : ℤ) - ((p.SizeX / 2 : ℕ) : ℤ)) : ℝ)) /
            (p.Magnification * (((min p.SizeX p.SizeY : ℕ) : ℝ) - 1)))
          (p.CenterY - ((((row : ℤ) - ((p.SizeY / 2 : ℕ) : ℤ)) : ℝ)) /
            (p.Magnification * (((min p.SizeX p.SizeY : ℕ) : ℝ) - 1)))
          p.Continuous)).1.toNat,
       (p.getColor (mandel p.MaxIterations
          (p.CenterX + ((((col : ℤ) - ((p.SizeX / 2 : ℕ) : ℤ)) : ℝ)) /
            (p.Magnification * (((min p.SizeX p.SizeY : ℕ) : ℝ) - 1)))
          (p.CenterY - ((((row : ℤ) - ((p.SizeY / 2 : ℕ) : ℤ)) : ℝ)) /
            (p.Magnification * (((min p.SizeX p.SizeY : ℕ) : ℝ) - 1)))
          p.Continuous)).2.1.toNat,
       (p.getColor (mandel p.MaxIterations
          (p.CenterX + ((((col : ℤ) - ((p.SizeX / 2 : ℕ) : ℤ)) : ℝ)) /
            (p.Magnification * (((min p.SizeX p.SizeY : ℕ) : ℝ) - 1)))
          (p.CenterY - ((((row : ℤ) - ((p.SizeY / 2 : ℕ) : ℤ)) : ℝ)) /
            (p.Magnification * (((min p.SizeX p.SizeY : ℕ) : ℝ) - 1)))
          p.Continuous)).2.2.toNat,
       255⟩) := by
  refine ⟨CalcPixel_eq p hinit hN hpb hib col row, ?_⟩
  intro h1
  rw [CalcPixel_eq p hinit hN hpb hib col row, h1]
  have hspec : specSample p col row 0 0 = p.getColor (mandel p.MaxIterations
      (p.CenterX + ((((col : ℤ) - ((p.SizeX / 2 : ℕ) : ℤ)) : ℝ)) /
        (p.Magnification * (((min p.SizeX p.SizeY : ℕ) : ℝ) - 1)))
      (p.CenterY - ((((row : ℤ) - ((p.SizeY / 2 : ℕ) : ℤ)) : ℝ)) /
        (p.Magnification * (((min p.SizeX p.SizeY : ℕ) : ℝ) - 1)))
      p.Continuous) := by
    unfold specSample
    rw [h1]
    norm_num
  simp only [Finset.sum_range_one, Nat.div_one, Nat.mul_one, hspec]

/-- A concrete initialized parameter value over `ℝ` used by the C3 witness. -/
noncomputable def pW3 : Parameters ℝ :=
  { CenterX := 0, CenterY := 0, Magnification := 1, MaxIterations := 1,
    SizeX := 2, SizeY := 2, AntiAlias := 1, Continuous := false,
    Palette := [⟨10, 20, 30, 255⟩], InsideColor := ⟨1, 2, 3, 255⟩,
    subpixOffsets := Mandel.subpixOffsets 1 }

/-- Witness for C3 at a 2×2 image with `antialiasLevel = 1`, pixel `(0, 0)`. -/
theorem CalcPixel_correct_witness :
    pW3.CalcPixel 0 0 = some
      ⟨(∑ i ∈ Finset.range 1, ∑ j ∈ Finset.range 1,
          (specSample pW3 0 0 i j).1).toNat / (1 * 1),
       (∑ i ∈ Finset.range 1, ∑ j ∈ Finset.range 1,
          (specSample pW3 0 0 i j).2.1).toNat / (1 * 1),
       (∑ i ∈ Finset.range 1, ∑ j ∈ Finset.range 1,
          (specSample pW3 0 0 i j).2.2).toNat / (1 * 1),
       255⟩ :=
  (CalcPixel_correct pW3 rfl (by decide) (by decide) (by decide)
    (by norm_num [pW3]) (by decide) (by decide) (by decide) (by decide) 0 0).1

/-- The color `CalcPixel` computes once its guard has passed (the value a row
worker emits for cell `(col, row)`). -/
noncomputable def Parameters.CalcPixelD (p : Parameters ℝ) (col row : ℕ) : NRGBA :=
  (p.CalcPixel col row).getD default

/-- The `(col, row, color)` results the row workers emit. `Generate` feeds rows
`0, …, SizeY−1` in order and each worker computes columns `0, …, SizeX−1` of
its row; delivery order to the aggregator is unconstrained, so the model keeps
the canonical row-major enumeration and quantifies over its permutations. -/
noncomputable def Parameters.pixelStream (p : Parameters ℝ) : List (ℕ × ℕ × NRGBA) :=
  (List.range p.SizeY).flatMap fun row =>
    (List.range p.SizeX).map fun col => (col, row, p.CalcPixelD col row)

/-- One `canvas.Set(pix.x, pix.y, pix.color)` step of the aggregator. -/
def applyPixel (c : ℕ → ℕ → NRGBA) (px : ℕ × ℕ × NRGBA) : ℕ → ℕ → NRGBA :=
  fun i j => if i = px.1 ∧ j = px.2.1 then px.2.2 else c i j

/-- The aggregator loop: write every delivered pixel into the canvas. -/
def applyPixels (l : List (ℕ × ℕ × NRGBA)) (c : ℕ → ℕ → NRGBA) : ℕ → ℕ → NRGBA :=
  l.foldl applyPixel c

/-- Model of `Parameters.Generate`: panics (modelled `none`) before `Init`; otherwise
returns the canvas obtained by aggregating every worker-computed pixel into
the zero-initialized `image.NRGBA` buffer. -/
noncomputable def Parameters.Generate (p : Parameters ℝ) : Option (ℕ → ℕ → NRGBA) :=
  if p.subpixOffsets.length ≠ p.AntiAlias then none
  else some (applyPixels p.pixelStream (fun _ _ => ⟨0, 0, 0, 0⟩))

section Scheduler

theorem applyPixels_nil (c : ℕ → ℕ → NRGBA) : applyPixels [] c = c := rfl

theorem applyPixels_cons (x : ℕ × ℕ × NRGBA) (xs : List (ℕ × ℕ × NRGBA))
    (c : ℕ → ℕ → NRGBA) : applyPixels (x :: xs) c = applyPixels xs (applyPixel c x) := rfl

theorem applyPixels_eval (v : ℕ → ℕ → NRGBA) (l : List (ℕ × ℕ × NRGBA))
    (hl : ∀ e ∈ l, e.2.2 = v e.1 e.2.1) (c : ℕ → ℕ → NRGBA) (i j : ℕ) :
    applyPixels l c i j =
      if ∃ e ∈ l, e.1 = i ∧ e.2.1 = j then v i j else c i j := by
  induction l generalizing c with
  | nil => simp [applyPixels_nil]
  | cons x xs ih =>
    rw [applyPixels_cons, ih (fun e he => hl e (List.mem_cons_of_mem x he))]
    by_cases hkey : ∃ e ∈ xs, e.1 = i ∧ e.2.1 = j
    · rw [if_pos hkey, if_pos (by obtain ⟨e, he, h⟩ := hkey; exact ⟨e, List.mem_cons_of_mem x he, h⟩)]
    · rw [if_neg hkey]
      unfold applyPixel
      by_cases hx : i = x.1 ∧ j = x.2.1
      · rw [if_pos hx]
        have hval : x.2.2 = v i j := by
          rw [hl x (List.mem_cons_self x xs), ← hx.1, ← hx.2]
        rw [hval, if_pos ⟨x, List.mem_cons_self x xs, hx.1.symm, hx.2.symm⟩]
      · rw [if_neg hx, if_neg]
        rintro ⟨e, he, h1, h2⟩
        rcases List.mem_cons.mp he with rfl | hmem
        · exact hx ⟨h1.symm, h2.symm⟩
        · exact hkey ⟨e, hmem, h1, h2⟩

theorem pixelStream_value (p : Parameters ℝ) :
    ∀ e ∈ p.pixelStream, e.2.2 = p.CalcPixelD e.1 e.2.1 := by
  intro e he
  unfold Parameters.pixelStream at he
  rw [List.mem_flatMap] at he
  obtain ⟨row, -, he⟩ := he
  rw [List.mem_map] at he
  obtain ⟨col, -, rfl⟩ := he
  rfl

theorem pixelStream_key (p : Parameters ℝ) (i j : ℕ) :
    (∃ e ∈ p.pixelStream, e.1 = i ∧ e.2.1 = j) ↔ i < p.SizeX ∧ j < p.SizeY := by
  unfold Parameters.pixelStream
  constructor
  · rintro ⟨e, he, h1, h2⟩
    rw [List.mem_flatMap] at he
    obtain ⟨row, hrow, he⟩ := he
    rw [List.mem_map] at he
    obtain ⟨col, hcol, rfl⟩ := he
    rw [List.mem_range] at hrow hcol
    simp only at h1 h2
    omega
  · rintro ⟨hi, hj⟩
    refine ⟨(i, j, p.CalcPixelD i j), ?_, rfl, rfl⟩
    rw [List.mem_flatMap]
    exact ⟨j, List.mem_range.mpr hj, List.mem_map.mpr ⟨i, List.mem_range.mpr hi, rfl⟩⟩

/-- Claim C8: whole-image rendering is deterministic. Whatever order the scheduler
delivers the worker results in (any permutation of the emitted pixel stream,
covering any worker-pool size), the aggregated canvas is the same; `Generate`
returns that canvas, and each in-bounds cell equals the Pixel Sampler's output
`CalcPixel(col, row)`. -/
theorem Generate_deterministic (p : Parameters ℝ)
    (hinit : p.subpixOffsets.length = p.AntiAlias) (c0 : ℕ → ℕ → NRGBA) :
    (∀ l, l.Perm p.pixelStream → applyPixels l c0 = applyPixels p.pixelStream c0) ∧
    p.Generate = some (applyPixels p.pixelStream (fun _ _ => ⟨0, 0, 0, 0⟩)) ∧
    ∀ col row, col < p.SizeX → row < p.SizeY →
      (∀ canvas, p.Generate = some canvas → canvas col row = p.CalcPixelD col row) ∧
      p.CalcPixel col row = some (p.CalcPixelD col row) := by
  have hgen : p.Generate = some (applyPixels p.pixelStream (fun _ _ => ⟨0, 0, 0, 0⟩)) := by
    unfold Parameters.Generate
    rw [if_neg (fun h => h hinit)]
  refine ⟨?_, hgen, ?_⟩
  · intro l hperm
    funext i j
    have hv := pixelStream_value p
    have hv' : ∀ e ∈ l, e.2.2 = p.CalcPixelD e.1 e.2.1 := fun e he => hv e (hperm.subset he)
    rw [applyPixels_eval p.CalcPixelD l hv' c0 i j,
      applyPixels_eval p.CalcPixelD p.pixelStream hv c0 i j]
    have hiff : (∃ e ∈ l, e.1 = i ∧ e.2.1 = j) ↔
        (∃ e ∈ p.pixelStream, e.1 = i ∧ e.2.1 = j) := by
      constructor
      · rintro ⟨e, he, h⟩
        exact ⟨e, hperm.subset he, h⟩
      · rintro ⟨e, he, h⟩
        exact ⟨e, hperm.symm.subset he, h⟩
    rw [if_congr hiff rfl rfl]
  · intro col row hcol hrow
    constructor
    · intro canvas hc
      rw [hgen] at hc
      rw [Option.some_inj] at hc
      rw [← hc, applyPixels_eval p.CalcPixelD p.pixelStream (pixelStream_value p) _ col row,
        if_pos ((pixelStream_key p col row).mpr ⟨hcol, hrow⟩)]
    · unfold Parameters.CalcPixelD Parameters.CalcPixel
      rw [if_neg (fun h => h hinit)]
      rfl

end Scheduler

/-- Witness for C8 at the initialized `pW3` (2×2 image): the identity
permutation of the stream, and cell `(0, 0)`. -/
theorem Generate_deterministic_witness :
    (applyPixels pW3.pixelStream (fun _ _ => ⟨0, 0, 0, 0⟩) =
      applyPixels pW3.pixelStream (fun _ _ => ⟨0, 0, 0, 0⟩)) ∧
    pW3.CalcPixel 0 0 = some (pW3.CalcPixelD 0 0) :=
  by
  have hoff : pW3.subpixOffsets = Mandel.subpixOffsets 1 := rfl
  have hinit : pW3.subpixOffsets.length = pW3.AntiAlias := by
    rw [hoff, subpixOffsets_length]
    rfl
  exact ⟨(Generate_deterministic pW3 hinit (fun _ _ => ⟨0, 0, 0, 0⟩)).1
      pW3.pixelStream (List.Perm.refl _),
    ((Generate_deterministic pW3 hinit (fun _ _ => ⟨0, 0, 0, 0⟩)).2.2 0 0
      (by decide) (by decide)).2⟩

/-- Claim C9: invoking per-pixel or whole-image computation before `Init` has
derived the subpixel-offset sequence (the offsets table still empty, the
validated antialias level at least 1) is fatal: both `CalcPixel` and
`Generate` panic (modelled `none`) instead of returning a result. -/
theorem calc_before_init_panics (p : Parameters ℝ)
    (hempty : p.subpixOffsets = []) (hN : 1 ≤ p.AntiAlias) (col row : ℕ) :
    p.CalcPixel col row = none ∧ p.Generate = none := by
  have h : p.subpixOffsets.length ≠ p.AntiAlias := by
    rw [hempty]
    simp only [List.length_nil]
    omega
  unfold Parameters.CalcPixel Parameters.Generate
  rw [if_pos h, if_pos h]
  exact ⟨rfl, rfl⟩

/-- An uninitialized parameter value (offsets not derived) for the C9 witness. -/
noncomputable def pW9 : Parameters ℝ := { pW3 with AntiAlias := 2, subpixOffsets := [] }

/-- Witness for C9: calling `CalcPixel` or `Generate` on `pW9` before `Init`. -/
theorem calc_before_init_panics_witness :
    pW9.CalcPixel 0 0 = none ∧ pW9.Generate = none :=
  calc_before_init_panics pW9 rfl (by decide) 0 0

/-- A concrete parameter value over `ℚ` used by the witnesses. -/
def pW : Parameters ℚ :=
  { CenterX := 0, CenterY := 0, Magnification := 1, MaxIterations := 1,
    SizeX := 1, SizeY := 1, AntiAlias := 1, Continuous := false,
    Palette := [⟨10, 20, 30, 255⟩, ⟨40, 50, 60, 255⟩],
    InsideColor := ⟨1, 2, 3, 255⟩, subpixOffsets := [] }

/-- The same witness parameters with continuous coloring enabled. -/
def pWc : Parameters ℚ := { pW with Continuous := true }

/-- Witness for C5: `iters = 3` on a two-color palette picks index `3 mod 2 = 1`. -/
theorem getColor_discrete_correct_witness : pW.getColor 3 = (40, 50, 60) := by
  have h := (getColor_discrete_correct pW 3 (by norm_num) rfl (by simp [pW])).1
  rw [h]
  norm_num [pW, show Int.toNat 3 % 2 = 1 from rfl]

/-- Witness for C4: `iters = 5/2` interpolates palette entries 1 and 0 with
weight `1/2`. -/
theorem getColor_continuous_correct_witness : pWc.getColor (5 / 2) = (25, 35, 45) := by
  have h := getColor_continuous_correct pWc (5 / 2) (by norm_num) rfl (by simp [pWc, pW])
  rw [h]
  norm_num [pWc, pW, Int.fract, show Int.toNat 2 % 2 = 0 from rfl,
    show Int.toNat (2 - 1) % 2 = 1 from rfl]

end Mandel
